import Mathlib

/-!
Verification of the rsmath library (files `matrix2d.rs`, `complex.rs`, `fft.rs`)
against its natural-language specification.

The Rust code is shallowly embedded:
* `Matrix2D<T>` becomes a structure holding `data : List (List α)` and `width : Nat`.
* Fallible operations return `Except Matrix2DError _`; a Rust panic (out-of-bounds
  index or `unwrap` of an `Err`) is modelled by an inner `Option` whose `none`
  value means "the call panics".
* The mutable `Matrix2D` locals of `lu_decomposition` are embedded as index
  functions `Nat → Nat → α` with explicit functional update; the result is
  materialised to lists at the end, exactly over the `width × width` index range
  the Rust code allocates.
* The generic scalar `T` becomes a type `α` with a `CommRing` instance (a `Field`
  where the code divides), covering the integer / rational / decimal scalars the
  repository instantiates.
-/

deriving instance DecidableEq for Except

namespace Rsmath

variable {α : Type}

/-- Error type of `matrix2d.rs` (`Matrix2DError`). -/
inductive Matrix2DError where
  | NotMultiplicable
  | NotAdditive
  | NotSquare
  | EmptyMatrix
  | EmptyRow
  | InconsistentRowLength
deriving DecidableEq

/-- The `Matrix2D<T>` struct: a vector of row vectors plus a cached `width`. -/
structure Matrix2D (α : Type) where
  data : List (List α)
  width : Nat
deriving DecidableEq

namespace Matrix2D

/-- Cell access `m[i][j]`; out-of-bounds reads default to `[]` / `0`.  Every
theorem below only uses `entry` at indices that are in bounds for the matrix
at hand, where it coincides with the Rust indexing. -/
def entry [Zero α] (m : Matrix2D α) (i j : Nat) : α :=
  (m.data.getD i []).getD j 0

/-- The construction invariant established by `Matrix2D::new` (and maintained
by every public constructor of the Rust crate): at least one row, positive
width, and every row of length exactly `width`. -/
def WF (m : Matrix2D α) : Prop :=
  0 < m.data.length ∧ 0 < m.width ∧ ∀ r ∈ m.data, r.length = m.width

instance (m : Matrix2D α) : Decidable (WF m) := by
  unfold WF; infer_instance

/-- Embedding of `Matrix2D::new`: validated construction. -/
def new (rows : List (List α)) : Except Matrix2DError (Matrix2D α) :=
  if rows.isEmpty then Except.error Matrix2DError.EmptyMatrix
  else if (rows.headD []).length = 0 then Except.error Matrix2DError.EmptyRow
  else if ¬ (∀ r ∈ rows, r.length = (rows.headD []).length) then
    Except.error Matrix2DError.InconsistentRowLength
  else Except.ok ⟨rows, (rows.headD []).length⟩

/-- Embedding of `Matrix2D::diag(size, value)`: a `size × size` matrix of zeros with `value`
on the main diagonal.  The Rust code builds the grid and runs it through
`new(..).unwrap()`; for `size ≥ 1` (the only case exercised here) that `unwrap`
succeeds and yields exactly this matrix with `width = size`. -/
def diag [Zero α] (size : Nat) (value : α) : Matrix2D α :=
  ⟨(List.range size).map (fun i =>
      (List.range size).map (fun j => if i = j then value else (0 : α))),
   size⟩

/-- Embedding of `Matrix2D::is_multiplicable`: `self.width == operand.data.len()`. -/
def is_multiplicable (self operand : Matrix2D α) : Prop :=
  self.width = operand.data.length

instance (self operand : Matrix2D α) : Decidable (is_multiplicable self operand) := by
  unfold is_multiplicable; infer_instance

/-- Embedding of `Matrix2D::is_additive`: equal widths and equal row counts. -/
def is_additive (self operand : Matrix2D α) : Prop :=
  self.width = operand.width ∧ self.data.length = operand.data.length

instance (self operand : Matrix2D α) : Decidable (is_additive self operand) := by
  unfold is_additive; infer_instance

/-- The fold inside `Matrix2D::mul`:
`r.iter().fold(T::zero(), |acc, x| acc + (*x * b))`. -/
def mulCell [CommRing α] (r : List α) (b : α) : α :=
  r.foldl (fun acc x => acc + x * b) 0

/-- Embedding of `Matrix2D::mul`.  After the `is_multiplicable` guard the Rust loop runs
`idx` over `self`'s rows and, for each, iterates `jdx` over `operand[idx]`,
pushing `fold(zero, acc + x * operand[idx][jdx])`; iterating `jdx` over the
positions of `operand[idx]` and reading `operand[idx][jdx]` is a `map` over
that row's elements.  The indexing `operand[idx]` panics whenever `self` has
more rows than `operand`, and the final `result[0].len()` panics when `self`
has no rows; both panics are modelled by `Except.ok none`. -/
def mul [CommRing α] (self operand : Matrix2D α) :
    Except Matrix2DError (Option (Matrix2D α)) :=
  if is_multiplicable self operand then
    if 0 < self.data.length ∧ self.data.length ≤ operand.data.length then
      Except.ok (some
        ⟨self.data.mapIdx (fun idx r =>
            (operand.data.getD idx []).map (fun b => mulCell r b)),
         (operand.data.getD 0 []).length⟩)
    else Except.ok none
  else Except.error Matrix2DError.NotMultiplicable

/-- Embedding of `Matrix2D::add`: guard `is_additive`, then elementwise sum rebuilt through
`Matrix2D::new(..).unwrap()` (the `unwrap` panic is modelled by `none`). -/
def add [CommRing α] (self operand : Matrix2D α) :
    Except Matrix2DError (Option (Matrix2D α)) :=
  if is_additive self operand then
    Except.ok (new (List.zipWith (fun r1 r2 => List.zipWith (fun a b => a + b) r1 r2)
      self.data operand.data)).toOption
  else Except.error Matrix2DError.NotAdditive

/-- Embedding of `Matrix2D::substract`: guard `is_additive`, then elementwise difference
rebuilt through `Matrix2D::new(..).unwrap()`. -/
def substract [CommRing α] (self operand : Matrix2D α) :
    Except Matrix2DError (Option (Matrix2D α)) :=
  if is_additive self operand then
    Except.ok (new (List.zipWith (fun r1 r2 => List.zipWith (fun a b => a - b) r1 r2)
      self.data operand.data)).toOption
  else Except.error Matrix2DError.NotAdditive

/-- Embedding of `Matrix2D::is_square`: `self.data.len() == self[0].len()` (the Rust code
compares the row count against the length of the first row; `self[0]` cannot
panic for matrices built by the validated constructors). -/
def is_square (self : Matrix2D α) : Prop :=
  self.data.length = (self.data.getD 0 []).length

instance (self : Matrix2D α) : Decidable (is_square self) := by
  unfold is_square; infer_instance

/-- Sum of `f 0 + ... + f (n-1)`, the embedding of
`(0..n).map(f).sum()`. -/
def rsum [CommRing α] (n : Nat) (f : Nat → α) : α :=
  ((List.range n).map f).sum

/-- Functional update of a two-index function: the embedding of the
assignment `m[i][j] = v` on a mutable matrix local. -/
def updf (f : Nat → Nat → α) (i j : Nat) (v : α) : Nat → Nat → α :=
  fun i' j' => if i' = i ∧ j' = j then v else f i' j'

/-- Initial state of `lu_decomposition`'s loop:
`l = diag(width, 1)`, `u = diag(width, 0)`, as index functions. -/
def luInit [Field α] : (Nat → Nat → α) × (Nat → Nat → α) :=
  (fun i j => if i = j then (1 : α) else 0, fun _ _ => (0 : α))

/-- One iteration of the doubly-nested loop body of `lu_decomposition`:
if `i ≤ j` set `u[i][j] = A[i][j] - Σ_{k<i} l[i][k]*u[k][j]`, otherwise set
`l[i][j] = (A[i][j] - Σ_{k<j} l[i][k]*u[k][j]) / u[j][j]`. -/
def luStep [Field α] (Af : Nat → Nat → α)
    (st : (Nat → Nat → α) × (Nat → Nat → α)) (i j : Nat) :
    (Nat → Nat → α) × (Nat → Nat → α) :=
  if i ≤ j then
    (st.1, updf st.2 i j (Af i j - rsum i (fun k => st.1 i k * st.2 k j)))
  else
    (updf st.1 i j ((Af i j - rsum j (fun k => st.1 i k * st.2 k j)) / st.2 j j),
     st.2)

/-- The doubly-nested loop `for i in 0..n { for j in 0..n { .. } }` of
`lu_decomposition`. -/
def luLoop [Field α] (Af : Nat → Nat → α) (n : Nat) :
    (Nat → Nat → α) × (Nat → Nat → α) :=
  (List.range n).foldl
    (fun st i => (List.range n).foldl (fun st j => luStep Af st i j) st)
    luInit

/-- Step-indexed view of `luLoop`: the state after `t` iterations of the loop
body, the iteration at time `t` visiting cell `(t / n, t % n)` (row-major
order).  `luLoop_eq_luSeq` below proves it equal to the nested folds. -/
def luSeq [Field α] (Af : Nat → Nat → α) (n : Nat) :
    Nat → (Nat → Nat → α) × (Nat → Nat → α)
  | 0 => luInit
  | t + 1 => luStep Af (luSeq Af n t) (t / n) (t % n)

/-- The final loop of `lu_decomposition`: `for i in 0..n { l[i][i] = 1 }`. -/
def luReassert [Field α] (n : Nat)
    (st : (Nat → Nat → α) × (Nat → Nat → α)) :
    (Nat → Nat → α) × (Nat → Nat → α) :=
  (List.range n).foldl (fun st i => (updf st.1 i i (1 : α), st.2)) st

/-- Materialise an index function as an `n × n` `Matrix2D` (the shape the
mutable `l` and `u` locals have throughout `lu_decomposition`). -/
def ofFun (n : Nat) (f : Nat → Nat → α) : Matrix2D α :=
  ⟨(List.range n).map (fun i => (List.range n).map (fun j => f i j)), n⟩

/-- The `(l, u)` pair computed by `lu_decomposition` after its `is_square`
guard has passed (`n = self.width`). -/
def luPair [Field α] (self : Matrix2D α) : Matrix2D α × Matrix2D α :=
  let n := self.width
  let st := luReassert n (luLoop (entry self) n)
  (ofFun n st.1, ofFun n st.2)

/-- Embedding of `Matrix2D::lu_decomposition`. -/
def lu_decomposition [Field α] (self : Matrix2D α) :
    Except Matrix2DError (Matrix2D α × Matrix2D α) :=
  if is_square self then Except.ok (luPair self)
  else Except.error Matrix2DError.NotSquare

/-- Embedding of `Matrix2D::det`: `NotSquare` guard, a `1 × 1` base case, otherwise the
product of the diagonal of the `U` factor of `lu_decomposition` (whose own
`is_square` guard is the same check, so its `unwrap` cannot panic here). -/
def det [Field α] (self : Matrix2D α) : Except Matrix2DError α :=
  if is_square self then
    if self.width = 1 then Except.ok (entry self 0 0)
    else
      Except.ok (((luPair self).2.data.mapIdx (fun idx row => row.getD idx 0)).prod)
  else Except.error Matrix2DError.NotSquare

end Matrix2D

/-- The `Complex<T>` struct of `complex.rs`. -/
structure Complex (α : Type) where
  re : α
  im : α
deriving DecidableEq

namespace Complex

/-- Embedding of `Complex::add`. -/
def add [CommRing α] (self operand : Complex α) : Complex α :=
  ⟨self.re + operand.re, self.im + operand.im⟩

/-- Embedding of `Complex::substract`. -/
def substract [CommRing α] (self operand : Complex α) : Complex α :=
  ⟨self.re - operand.re, self.im - operand.im⟩

/-- Embedding of `Complex::multiply`. -/
def multiply [CommRing α] (self operand : Complex α) : Complex α :=
  ⟨self.re * operand.re - self.im * operand.im,
   self.im * operand.re + self.re * operand.im⟩

/-- Embedding of `Complex::divide`: division by the squared magnitude of the operand, with
no guard against a zero divisor. -/
def divide [Field α] (self operand : Complex α) : Complex α :=
  ⟨(self.re * operand.re + self.im * operand.im) /
     (operand.re * operand.re + operand.im * operand.im),
   (self.im * operand.re - self.re * operand.im) /
     (operand.re * operand.re + operand.im * operand.im)⟩

/-- Fuel-indexed embedding of the recursive `Complex::pow`: `pow(a, n)` is `a`
when `n == 1` and `a.multiply(pow(a, n - 1))` otherwise.  `powFuel a n fuel`
returns `some` of the value `pow(a, n)` computes within `fuel` recursive
calls, and `none` if `fuel` unwindings do not reach the base case; the `i32`
argument is modelled as an unbounded integer. -/
def powFuel [CommRing α] (a : Complex α) : Int → Nat → Option (Complex α)
  | _, 0 => none
  | n, fuel + 1 =>
    if n = 1 then some a
    else Option.map (fun r => multiply a r) (powFuel a (n - 1) fuel)

/-- The n-fold product of `a` with itself in the association order produced by
`pow`'s recurrence: `powNat a 0 = a` and `powNat a (k+1) = a * powNat a k`,
so `powNat a k` is the value of `pow(a, k + 1)`. -/
def powNat [CommRing α] (a : Complex α) : Nat → Complex α
  | 0 => a
  | k + 1 => multiply a (powNat a k)

end Complex

/-- The DFT of `fft.rs` (the function named `fft`).  The per-term rotation
factor — `fft_fold`'s `Complex { re: cos θ, im: sin θ }` with
`θ = -τ·n·k/length`, computed through `rust_decimal` — is transcendental and
is abstracted here as a parameter `rot n k length`; every claim settled about
`fft` is independent of the rotation factor's value.  With that abstraction
the body is a literal transcription: for each `k` in `0..length`, fold the
enumerated input with `acc.add(x[n].multiply(rot n k length))` starting from
`Complex { re: 0, im: 0 }`. -/
def fft [CommRing α] (rot : Nat → Nat → Nat → Complex α)
    (x : List (Complex α)) : List (Complex α) :=
  (List.range x.length).map (fun k =>
    x.enum.foldl
      (fun acc p => acc.add (p.2.multiply (rot p.1 k x.length)))
      ⟨0, 0⟩)

/-! ### Helper lemmas -/

theorem foldl_add_mul [CommRing α] (b : α) :
    ∀ (l : List α) (a : α),
      l.foldl (fun acc x => acc + x * b) a = a + (l.map (fun x => x * b)).sum
  | [], a => by simp
  | x :: l, a => by
    rw [List.foldl_cons, foldl_add_mul b l (a + x * b)]
    simp [add_assoc]

theorem rsum_zero [CommRing α] (f : Nat → α) : Matrix2D.rsum 0 f = 0 := rfl

theorem rsum_succ [CommRing α] (n : Nat) (f : Nat → α) :
    Matrix2D.rsum (n + 1) f = Matrix2D.rsum n f + f n := by
  simp [Matrix2D.rsum, List.range_succ]

theorem rsum_shift [CommRing α] (n : Nat) (f : Nat → α) :
    Matrix2D.rsum (n + 1) f = f 0 + Matrix2D.rsum n (fun k => f (k + 1)) := by
  simp only [Matrix2D.rsum, List.range_succ_eq_map, List.map_cons, List.sum_cons,
    List.map_map]
  rfl

theorem rsum_congr [CommRing α] {n : Nat} {f g : Nat → α}
    (h : ∀ k, k < n → f k = g k) : Matrix2D.rsum n f = Matrix2D.rsum n g := by
  unfold Matrix2D.rsum
  rw [List.map_congr_left (fun k hk => h k (List.mem_range.mp hk))]

theorem rsum_drop_zeros [CommRing α] {f : Nat → α} {m : Nat} :
    ∀ {n : Nat}, m ≤ n → (∀ k, m ≤ k → k < n → f k = 0) →
      Matrix2D.rsum n f = Matrix2D.rsum m f := by
  intro n
  induction n with
  | zero =>
    intro hm _
    interval_cases m
    rfl
  | succ n ih =>
    intro hm hz
    rcases Nat.lt_or_ge m (n + 1) with hlt | hge
    · have hmn : m ≤ n := by omega
      rw [rsum_succ, hz n hmn (by omega), add_zero]
      exact ih hmn (fun k h1 h2 => hz k h1 (by omega))
    · have : m = n + 1 := by omega
      subst this
      rfl

theorem rsum_delta [CommRing α] (v : α) :
    ∀ {n i : Nat}, i < n →
      Matrix2D.rsum n (fun k => if i = k then v else 0) = v := by
  intro n
  induction n with
  | zero => omega
  | succ n ih =>
    intro i hi
    rw [rsum_succ]
    rcases Nat.lt_or_ge i n with hlt | hge
    · rw [ih hlt, if_neg (by omega), add_zero]
    · have hin : i = n := by omega
      subst hin
      rw [if_pos rfl, rsum_congr (g := fun _ => (0 : α)) (fun k hk => if_neg (by omega))]
      simp [Matrix2D.rsum]

theorem map_sum_eq_rsum [CommRing α] (g : α → α) :
    ∀ (l : List α),
      (l.map g).sum = Matrix2D.rsum l.length (fun k => g (l.getD k 0))
  | [] => by simp [Matrix2D.rsum]
  | x :: l => by
    rw [List.map_cons, List.sum_cons, map_sum_eq_rsum g l, List.length_cons,
      rsum_shift]
    simp

theorem mulCell_eq_rsum [CommRing α] (r : List α) (b : α) :
    Matrix2D.mulCell r b = Matrix2D.rsum r.length (fun k => r.getD k 0 * b) := by
  rw [Matrix2D.mulCell, foldl_add_mul, zero_add, map_sum_eq_rsum (fun x => x * b)]

theorem getD_map {β γ : Type} (f : β → γ) (l : List β) (d : β) (d' : γ)
    {j : Nat} (h : j < l.length) : (l.map f).getD j d' = f (l.getD j d) := by
  rw [List.getD_eq_getElem _ _ (by simpa using h), List.getElem_map,
    List.getD_eq_getElem _ _ h]

theorem getD_map_range {β : Type} (d : β) (g : Nat → β) {n k : Nat} (h : k < n) :
    (((List.range n).map g).getD k d) = g k := by
  rw [List.getD_eq_getElem _ _ (by simpa using h)]
  simp

theorem mulCell_diag_row [CommRing α] {n i : Nat} (h : i < n) (b : α) :
    Matrix2D.mulCell ((List.range n).map (fun j => if i = j then (1 : α) else 0)) b
      = b := by
  rw [mulCell_eq_rsum]
  simp only [List.length_map, List.length_range]
  rw [rsum_congr (g := fun k => if i = k then b else 0)
      (fun k hk => by rw [getD_map_range _ _ hk]; split <;> simp_all)]
  exact rsum_delta b h

theorem new_ok {rows : List (List α)} (h0 : rows ≠ [])
    (hw : (rows.headD []).length ≠ 0)
    (hall : ∀ r ∈ rows, r.length = (rows.headD []).length) :
    Matrix2D.new rows = Except.ok ⟨rows, (rows.headD []).length⟩ := by
  have h1 : rows.isEmpty = false := by
    simpa [List.isEmpty_iff] using h0
  rw [Matrix2D.new, if_neg (by simp [h1]), if_neg hw, if_neg (not_not_intro hall)]

theorem WF_row_length {m : Matrix2D α} (h : m.WF) {i : Nat}
    (hi : i < m.data.length) : (m.data.getD i []).length = m.width := by
  rw [List.getD_eq_getElem _ _ hi]
  exact h.2.2 _ (List.getElem_mem hi)

theorem mul_ok [CommRing α] {A B : Matrix2D α} (hm : A.is_multiplicable B)
    (h0 : 0 < A.data.length) (hle : A.data.length ≤ B.data.length) :
    A.mul B = Except.ok (some
      ⟨A.data.mapIdx (fun idx r =>
          (B.data.getD idx []).map (fun b => Matrix2D.mulCell r b)),
       (B.data.getD 0 []).length⟩) := by
  rw [Matrix2D.mul, if_pos hm, if_pos ⟨h0, hle⟩]

theorem mul_result_entry [CommRing α] {A B : Matrix2D α} (hA : A.WF) (hB : B.WF)
    (hle : A.data.length ≤ B.data.length) {i j : Nat}
    (hi : i < A.data.length) (hj : j < B.width) :
    Matrix2D.entry
      (⟨A.data.mapIdx (fun idx r =>
          (B.data.getD idx []).map (fun b => Matrix2D.mulCell r b)),
        (B.data.getD 0 []).length⟩ : Matrix2D α) i j =
      Matrix2D.rsum A.width
        (fun k => Matrix2D.entry A i k * Matrix2D.entry B i j) := by
  have hiB : i < B.data.length := lt_of_lt_of_le hi hle
  have hrowB : (B.data.getD i []).length = B.width := WF_row_length hB hiB
  have hrowA : (A.data.getD i []).length = A.width :=
    WF_row_length hA hi
  have hlen : i < (A.data.mapIdx (fun idx r =>
      (B.data.getD idx []).map (fun b => Matrix2D.mulCell r b))).length := by
    simpa using hi
  have hOuter : (A.data.mapIdx (fun idx r =>
        (B.data.getD idx []).map (fun b => Matrix2D.mulCell r b))).getD i [] =
      (B.data.getD i []).map (fun b => Matrix2D.mulCell (A.data[i]) b) := by
    rw [List.getD_eq_getElem _ _ hlen, List.getElem_mapIdx]
  have hjB : j < (B.data.getD i []).length := by omega
  unfold Matrix2D.entry
  simp only [hOuter]
  rw [getD_map _ _ (0 : α) _ hjB]
  have hAi : A.data[i] = A.data.getD i [] := (List.getD_eq_getElem _ _ hi).symm
  rw [hAi, mulCell_eq_rsum, hrowA]

theorem luSeq_row [Field α] (Af : Nat → Nat → α) {n : Nat} (i : Nat) :
    ∀ (c s : Nat), s + c ≤ n →
      (List.range' s c).foldl (fun st j => Matrix2D.luStep Af st i j)
          (Matrix2D.luSeq Af n (n * i + s)) =
        Matrix2D.luSeq Af n (n * i + (s + c)) := by
  intro c
  induction c with
  | zero => intro s _; simp
  | succ c ih =>
    intro s hs
    have hn : 0 < n := by omega
    have hsn : s < n := by omega
    rw [List.range'_succ, List.foldl_cons]
    have hstep : Matrix2D.luStep Af (Matrix2D.luSeq Af n (n * i + s)) i s =
        Matrix2D.luSeq Af n (n * i + (s + 1)) := by
      have hdiv : (n * i + s) / n = i := by
        rw [Nat.mul_add_div hn, Nat.div_eq_of_lt hsn, Nat.add_zero]
      have hmod : (n * i + s) % n = s := by
        rw [Nat.mul_add_mod, Nat.mod_eq_of_lt hsn]
      conv_rhs => rw [show n * i + (s + 1) = (n * i + s) + 1 by omega]
      simp only [Matrix2D.luSeq, hdiv, hmod]
    rw [hstep, ih (s + 1) (by omega)]
    congr 1
    omega

theorem luOuter_eq [Field α] (Af : Nat → Nat → α) {n : Nat} :
    ∀ (c s : Nat), s + c ≤ n →
      (List.range' s c).foldl
          (fun st i => (List.range n).foldl (fun st j => Matrix2D.luStep Af st i j) st)
          (Matrix2D.luSeq Af n (n * s)) =
        Matrix2D.luSeq Af n (n * (s + c)) := by
  intro c
  induction c with
  | zero => intro s _; simp
  | succ c ih =>
    intro s hs
    rw [List.range'_succ, List.foldl_cons]
    have hrow : (List.range n).foldl (fun st j => Matrix2D.luStep Af st s j)
        (Matrix2D.luSeq Af n (n * s)) = Matrix2D.luSeq Af n (n * (s + 1)) := by
      have h0 : Matrix2D.luSeq Af n (n * s) = Matrix2D.luSeq Af n (n * s + 0) := rfl
      rw [List.range_eq_range', h0, luSeq_row Af s n 0 (by omega)]
      congr 1
      rw [Nat.mul_succ]
      omega
    rw [hrow, ih (s + 1) (by omega)]
    congr 1
    ring_nf

theorem luLoop_eq_luSeq [Field α] (Af : Nat → Nat → α) {n : Nat} :
    Matrix2D.luLoop Af n = Matrix2D.luSeq Af n (n * n) := by
  have h0 : (Matrix2D.luInit : (Nat → Nat → α) × (Nat → Nat → α)) =
      Matrix2D.luSeq Af n (n * 0) := rfl
  rw [Matrix2D.luLoop, h0]
  nth_rewrite 2 [List.range_eq_range']
  rw [luOuter_eq Af n 0 (by omega)]
  congr 1
  ring_nf

theorem luSeq_unchanged [Field α] (Af : Nat → Nat → α) (n t : Nat) {i j : Nat}
    (h : ¬ (t / n = i ∧ t % n = j)) :
    (Matrix2D.luSeq Af n (t + 1)).1 i j = (Matrix2D.luSeq Af n t).1 i j ∧
    (Matrix2D.luSeq Af n (t + 1)).2 i j = (Matrix2D.luSeq Af n t).2 i j := by
  have key : ∀ (f : Nat → Nat → α) (v : α),
      Matrix2D.updf f (t / n) (t % n) v i j = f i j := by
    intro f v
    simp only [Matrix2D.updf]
    rw [if_neg]
    intro hc
    exact h ⟨hc.1.symm, hc.2.symm⟩
  simp only [Matrix2D.luSeq, Matrix2D.luStep]
  by_cases hle : t / n ≤ t % n
  · rw [if_pos hle]
    exact ⟨rfl, key _ _⟩
  · rw [if_neg hle]
    exact ⟨key _ _, rfl⟩

theorem luSeq_l_upper [Field α] (Af : Nat → Nat → α) (n : Nat) {i j : Nat}
    (hij : i ≤ j) : ∀ t, (Matrix2D.luSeq Af n t).1 i j = if i = j then (1 : α) else 0
  | 0 => rfl
  | t + 1 => by
    simp only [Matrix2D.luSeq, Matrix2D.luStep]
    by_cases hle : t / n ≤ t % n
    · rw [if_pos hle]
      exact luSeq_l_upper Af n hij t
    · rw [if_neg hle]
      show Matrix2D.updf _ _ _ _ i j = _
      simp only [Matrix2D.updf]
      rw [if_neg, luSeq_l_upper Af n hij t]
      rintro ⟨hdi, hdj⟩
      omega

theorem luSeq_u_lower [Field α] (Af : Nat → Nat → α) (n : Nat) {i j : Nat}
    (hij : j < i) : ∀ t, (Matrix2D.luSeq Af n t).2 i j = 0
  | 0 => rfl
  | t + 1 => by
    simp only [Matrix2D.luSeq, Matrix2D.luStep]
    by_cases hle : t / n ≤ t % n
    · rw [if_pos hle]
      show Matrix2D.updf _ _ _ _ i j = _
      simp only [Matrix2D.updf]
      rw [if_neg, luSeq_u_lower Af n hij t]
      rintro ⟨hdi, hdj⟩
      omega
    · rw [if_neg hle]
      exact luSeq_u_lower Af n hij t

theorem luSeq_stable [Field α] (Af : Nat → Nat → α) (n : Nat) {i j : Nat} :
    ∀ {t : Nat}, n * i + j < t →
      (Matrix2D.luSeq Af n t).1 i j = (Matrix2D.luSeq Af n (n * i + j + 1)).1 i j ∧
      (Matrix2D.luSeq Af n t).2 i j = (Matrix2D.luSeq Af n (n * i + j + 1)).2 i j := by
  intro t
  induction t with
  | zero => omega
  | succ t ih =>
    intro ht
    rcases Nat.lt_or_ge (n * i + j) t with h | h
    · have hpos : ¬ (t / n = i ∧ t % n = j) := by
        rintro ⟨hdi, hdj⟩
        have hdm : n * (t / n) + t % n = t := Nat.div_add_mod t n
        rw [hdi, hdj] at hdm
        omega
      have h2 := luSeq_unchanged Af n t hpos
      exact ⟨h2.1.trans (ih h).1, h2.2.trans (ih h).2⟩
    · have heq : t = n * i + j := by omega
      subst heq
      exact ⟨rfl, rfl⟩

theorem luSeq_write_le [Field α] (Af : Nat → Nat → α) {n i j : Nat}
    (hi : i < n) (hj : j < n) (hij : i ≤ j) :
    (Matrix2D.luSeq Af n (n * i + j + 1)).2 i j =
      Af i j - Matrix2D.rsum i (fun k =>
        (Matrix2D.luSeq Af n (n * i + j)).1 i k *
        (Matrix2D.luSeq Af n (n * i + j)).2 k j) := by
  have hn : 0 < n := by omega
  have hdiv : (n * i + j) / n = i := by
    rw [Nat.mul_add_div hn, Nat.div_eq_of_lt hj, Nat.add_zero]
  have hmod : (n * i + j) % n = j := by
    rw [Nat.mul_add_mod, Nat.mod_eq_of_lt hj]
  simp only [Matrix2D.luSeq, hdiv, hmod, Matrix2D.luStep, if_pos hij, Matrix2D.updf]
  simp

theorem luSeq_write_gt [Field α] (Af : Nat → Nat → α) {n i j : Nat}
    (hi : i < n) (hj : j < i) :
    (Matrix2D.luSeq Af n (n * i + j + 1)).1 i j =
      (Af i j - Matrix2D.rsum j (fun k =>
          (Matrix2D.luSeq Af n (n * i + j)).1 i k *
          (Matrix2D.luSeq Af n (n * i + j)).2 k j)) /
        (Matrix2D.luSeq Af n (n * i + j)).2 j j := by
  have hn : 0 < n := by omega
  have hjn : j < n := by omega
  have hdiv : (n * i + j) / n = i := by
    rw [Nat.mul_add_div hn, Nat.div_eq_of_lt hjn, Nat.add_zero]
  have hmod : (n * i + j) % n = j := by
    rw [Nat.mul_add_mod, Nat.mod_eq_of_lt hjn]
  simp only [Matrix2D.luSeq, hdiv, hmod, Matrix2D.luStep, if_neg (by omega : ¬ i ≤ j),
    Matrix2D.updf]
  simp

theorem idx_lt_sq {n i j : Nat} (hi : i < n) (hj : j < n) : n * i + j < n * n := by
  have h2 : n * (i + 1) ≤ n * n := Nat.mul_le_mul_left n (by omega)
  rw [Nat.mul_succ] at h2
  omega

theorem mul_lt_mul_fst {n k i : Nat} (h : k < i) : n * k + n ≤ n * i := by
  have := Nat.mul_le_mul_left n (by omega : k + 1 ≤ i)
  rw [Nat.mul_succ] at this
  omega

theorem luFinal_u [Field α] (Af : Nat → Nat → α) {n i j : Nat}
    (hi : i < n) (hj : j < n) (hij : i ≤ j) :
    (Matrix2D.luSeq Af n (n * n)).2 i j =
      Af i j - Matrix2D.rsum i (fun k =>
        (Matrix2D.luSeq Af n (n * n)).1 i k *
        (Matrix2D.luSeq Af n (n * n)).2 k j) := by
  have hn : 0 < n := by omega
  have hlt : n * i + j < n * n := idx_lt_sq hi hj
  rw [(luSeq_stable Af n hlt).2, luSeq_write_le Af hi hj hij]
  congr 1
  apply rsum_congr
  intro k hk
  have e1 : (Matrix2D.luSeq Af n (n * i + j)).1 i k =
      (Matrix2D.luSeq Af n (n * n)).1 i k := by
    have hwk : n * i + k < n * i + j := by omega
    exact ((luSeq_stable Af n hwk).1).trans
      ((luSeq_stable Af n (hwk.trans hlt)).1).symm
  have e2 : (Matrix2D.luSeq Af n (n * i + j)).2 k j =
      (Matrix2D.luSeq Af n (n * n)).2 k j := by
    have hwk : n * k + j < n * i + j := by
      have := mul_lt_mul_fst (n := n) hk
      omega
    exact ((luSeq_stable Af n hwk).2).trans
      ((luSeq_stable Af n (hwk.trans hlt)).2).symm
  rw [e1, e2]

theorem luFinal_l [Field α] (Af : Nat → Nat → α) {n i j : Nat}
    (hi : i < n) (hj : j < i) :
    (Matrix2D.luSeq Af n (n * n)).1 i j =
      (Af i j - Matrix2D.rsum j (fun k =>
          (Matrix2D.luSeq Af n (n * n)).1 i k *
          (Matrix2D.luSeq Af n (n * n)).2 k j)) /
        (Matrix2D.luSeq Af n (n * n)).2 j j := by
  have hn : 0 < n := by omega
  have hjn : j < n := by omega
  have hlt : n * i + j < n * n := idx_lt_sq hi hjn
  rw [(luSeq_stable Af n hlt).1, luSeq_write_gt Af hi hj]
  have epiv : (Matrix2D.luSeq Af n (n * i + j)).2 j j =
      (Matrix2D.luSeq Af n (n * n)).2 j j := by
    have hwk : n * j + j < n * i + j := by
      have := mul_lt_mul_fst (n := n) hj
      omega
    exact ((luSeq_stable Af n hwk).2).trans
      ((luSeq_stable Af n (hwk.trans hlt)).2).symm
  rw [epiv]
  congr 2
  apply rsum_congr
  intro k hk
  have e1 : (Matrix2D.luSeq Af n (n * i + j)).1 i k =
      (Matrix2D.luSeq Af n (n * n)).1 i k := by
    have hwk : n * i + k < n * i + j := by omega
    exact ((luSeq_stable Af n hwk).1).trans
      ((luSeq_stable Af n (hwk.trans hlt)).1).symm
  have e2 : (Matrix2D.luSeq Af n (n * i + j)).2 k j =
      (Matrix2D.luSeq Af n (n * n)).2 k j := by
    have hwk : n * k + j < n * i + j := by
      have := mul_lt_mul_fst (n := n) (hk.trans hj)
      omega
    exact ((luSeq_stable Af n hwk).2).trans
      ((luSeq_stable Af n (hwk.trans hlt)).2).symm
  rw [e1, e2]

theorem luReassert_aux [Field α] :
    ∀ (c s : Nat) (st : (Nat → Nat → α) × (Nat → Nat → α)) (i j : Nat),
      (((List.range' s c).foldl (fun st i => (Matrix2D.updf st.1 i i 1, st.2)) st).1 i j
          = if i = j ∧ s ≤ i ∧ i < s + c then 1 else st.1 i j) ∧
      ((List.range' s c).foldl (fun st i => (Matrix2D.updf st.1 i i 1, st.2)) st).2 = st.2 := by
  intro c
  induction c with
  | zero =>
    intro s st i j
    refine ⟨?_, rfl⟩
    rw [List.range'_zero, List.foldl_nil, if_neg (by omega)]
  | succ c ih =>
    intro s st i j
    rw [List.range'_succ, List.foldl_cons]
    refine ⟨?_, ((ih (s + 1) _ i j).2)⟩
    rw [(ih (s + 1) _ i j).1]
    by_cases h1 : i = j ∧ s + 1 ≤ i ∧ i < s + 1 + c
    · rw [if_pos h1, if_pos (by omega)]
    · rw [if_neg h1]
      show _ = if i = j ∧ s ≤ i ∧ i < s + (c + 1) then (1 : α) else st.1 i j
      simp only [Matrix2D.updf]
      by_cases h2 : i = s ∧ j = s
      · rw [if_pos h2, if_pos (by omega)]
      · rw [if_neg h2, if_neg (by omega)]

theorem luReassert_luSeq [Field α] (Af : Nat → Nat → α) (n : Nat) (i j : Nat) :
    (Matrix2D.luReassert n (Matrix2D.luSeq Af n (n * n))).1 i j =
      (Matrix2D.luSeq Af n (n * n)).1 i j ∧
    (Matrix2D.luReassert n (Matrix2D.luSeq Af n (n * n))).2 i j =
      (Matrix2D.luSeq Af n (n * n)).2 i j := by
  rw [Matrix2D.luReassert, List.range_eq_range']
  have h := luReassert_aux n 0 (Matrix2D.luSeq Af n (n * n)) i j
  refine ⟨?_, by rw [h.2]⟩
  rw [h.1]
  by_cases hc : i = j ∧ 0 ≤ i ∧ i < 0 + n
  · rw [if_pos hc, luSeq_l_upper Af n (le_of_eq hc.1) (n * n), if_pos hc.1]
  · rw [if_neg hc]

theorem ofFun_entry {β : Type} [Zero β] (n : Nat) (f : Nat → Nat → β) {i j : Nat}
    (hi : i < n) (hj : j < n) : (Matrix2D.ofFun n f).entry i j = f i j := by
  unfold Matrix2D.ofFun Matrix2D.entry
  rw [getD_map_range _ _ hi, getD_map_range _ _ hj]

theorem ofFun_shape {β : Type} (n : Nat) (f : Nat → Nat → β) :
    (Matrix2D.ofFun n f).data.length = n ∧ (Matrix2D.ofFun n f).width = n ∧
      ∀ r ∈ (Matrix2D.ofFun n f).data, r.length = n := by
  refine ⟨by simp [Matrix2D.ofFun], rfl, ?_⟩
  intro r hr
  rw [Matrix2D.ofFun] at hr
  simp only [List.mem_map, List.mem_range] at hr
  obtain ⟨a, _, ha⟩ := hr
  rw [← ha]
  simp

theorem luPair_entry [Field α] (A : Matrix2D α) {i j : Nat}
    (hi : i < A.width) (hj : j < A.width) :
    A.luPair.1.entry i j =
      (Matrix2D.luSeq A.entry A.width (A.width * A.width)).1 i j ∧
    A.luPair.2.entry i j =
      (Matrix2D.luSeq A.entry A.width (A.width * A.width)).2 i j := by
  constructor
  · show (Matrix2D.ofFun A.width
        (Matrix2D.luReassert A.width (Matrix2D.luLoop A.entry A.width)).1).entry i j = _
    rw [ofFun_entry _ _ hi hj, luLoop_eq_luSeq]
    exact (luReassert_luSeq A.entry A.width i j).1
  · show (Matrix2D.ofFun A.width
        (Matrix2D.luReassert A.width (Matrix2D.luLoop A.entry A.width)).2).entry i j = _
    rw [ofFun_entry _ _ hi hj, luLoop_eq_luSeq]
    exact (luReassert_luSeq A.entry A.width i j).2

theorem WF_square_iff {A : Matrix2D α} (h : A.WF) :
    A.is_square ↔ A.data.length = A.width := by
  unfold Matrix2D.is_square
  rw [WF_row_length h h.1]

/-! ### Claims -/

/-- Claim C1, counterexample.  The claim asserts that `mul(A, B)` succeeds for
every pair with `A.width == B.rowCount`; the `3 × 2` matrix `A` and the
`2 × 2` matrix `B` below pass that check, yet `mul` hits the out-of-bounds
index `operand[2]` and panics (modelled as `Except.ok none`) instead of
succeeding. -/
theorem mul_C1_counterexample :
    Matrix2D.is_multiplicable (⟨[[1,2],[3,4],[5,6]],2⟩ : Matrix2D Int)
        ⟨[[1,0],[0,1]],2⟩ ∧
    Matrix2D.mul (⟨[[1,2],[3,4],[5,6]],2⟩ : Matrix2D Int) ⟨[[1,0],[0,1]],2⟩ =
      Except.ok none := by
  decide

/-- Claim C1, amended: for well-formed `A`, `B`, `mul(A, B)` fails with
`NotMultiplicable` exactly when `A.width ≠ B.rowCount`; when the widths match
and additionally `A.rowCount ≤ B.rowCount` (so the out-of-bounds panic of the
counterexample cannot fire), `mul` succeeds and every result cell `(i, j)`
equals `Σ_k A[i][k] * B[i][j]` — the spec's recurrence, with `B` indexed by
`A`'s row index `i`. -/
theorem mul_C1_spec [CommRing α] (A B : Matrix2D α) (hA : A.WF) (hB : B.WF) :
    (¬ A.is_multiplicable B →
      A.mul B = Except.error Matrix2DError.NotMultiplicable) ∧
    (A.is_multiplicable B → A.data.length ≤ B.data.length →
      ∃ C : Matrix2D α, A.mul B = Except.ok (some C) ∧
        C.data.length = A.data.length ∧ C.width = B.width ∧
        (∀ r ∈ C.data, r.length = B.width) ∧
        (∀ i j, i < A.data.length → j < B.width →
          C.entry i j =
            Matrix2D.rsum A.width (fun k => A.entry i k * B.entry i j))) := by
  constructor
  · intro h
    rw [Matrix2D.mul, if_neg h]
  · intro hm hle
    have h0B : 0 < B.data.length := by
      have := hA.2.1
      rw [Matrix2D.is_multiplicable] at hm
      omega
    refine ⟨_, mul_ok hm hA.1 hle, by simp, WF_row_length hB h0B, ?_, ?_⟩
    · intro r hr
      rw [List.mem_iff_getElem] at hr
      obtain ⟨i, hilen, hieq⟩ := hr
      rw [List.getElem_mapIdx] at hieq
      rw [← hieq, List.length_map]
      have hiA : i < A.data.length := by simpa using hilen
      exact WF_row_length hB (by omega)
    · intro i j hi hj
      exact mul_result_entry hA hB hle hi hj

/-- Claim C2, counterexample.  Reading "multiplying A by the identity" as
`A.mul(diag(n, 1))` with `A` the left operand, the claim fails at the spec's
own example `A = [[2,4],[3,6]]`: the product is `[[6,0],[0,9]]` (each
diagonal cell holds a row sum), not `A`. -/
theorem mul_C2_counterexample :
    Matrix2D.mul (⟨[[2,4],[3,6]],2⟩ : Matrix2D Int) (Matrix2D.diag 2 1) =
      Except.ok (some ⟨[[6,0],[0,9]],2⟩) ∧
    (⟨[[6,0],[0,9]],2⟩ : Matrix2D Int) ≠ ⟨[[2,4],[3,6]],2⟩ := by
  decide

/-- Claim C2, amended: with the identity as the *left* operand — the direction
the repository's `matmul_test` exercises — `diag(n,1).mul(A)` returns `A`
itself, for every well-formed `n × n` matrix `A` with `n ≥ 1` (each row of
the identity sums to `1`, so the quirky recurrence reproduces `A[i][j]`). -/
theorem mul_C2_identity [CommRing α] (A : Matrix2D α) (n : Nat) (hn : 0 < n)
    (hA : A.WF) (hrows : A.data.length = n) (hw : A.width = n) :
    Matrix2D.mul (Matrix2D.diag n (1 : α)) A = Except.ok (some A) := by
  have hdlen : (Matrix2D.diag n (1 : α)).data.length = n := by
    simp [Matrix2D.diag]
  have hm : (Matrix2D.diag n (1 : α)).is_multiplicable A := by
    simp [Matrix2D.is_multiplicable, Matrix2D.diag, hrows]
  rw [mul_ok hm (by omega) (by omega)]
  refine congrArg _ (congrArg _ ?_)
  obtain ⟨Adata, Awidth⟩ := A
  have hw0 : (Adata.getD 0 []).length = Awidth := WF_row_length hA (by simpa using hA.1)
  refine Matrix2D.mk.injEq .. ▸ ?_
  constructor
  · apply List.ext_getElem
    · simpa [hdlen] using hrows.symm
    · intro i h1 h2
      rw [List.getElem_mapIdx]
      have hin : i < n := by simpa [hdlen] using h1
      have hid : i < (Matrix2D.diag n (1 : α)).data.length := by omega
      have hdiagRow : (Matrix2D.diag n (1 : α)).data[i] =
          (List.range n).map (fun j => if i = j then (1 : α) else 0) := by
        simp [Matrix2D.diag]
      rw [hdiagRow]
      have hmap : (Adata.getD i []).map
          (fun b => Matrix2D.mulCell
            ((List.range n).map (fun j => if i = j then (1 : α) else 0)) b) =
          (Adata.getD i []).map (fun b => b) := by
        apply List.map_congr_left
        intro b _
        exact mulCell_diag_row hin b
      show (Adata.getD i []).map _ = _
      rw [hmap, List.map_id', List.getD_eq_getElem _ _ (by omega)]
  · simpa using hw0

/-- Claim C3: matrices that pass the multiplicability check but make `mul`
panic with an out-of-bounds index exist — the `3 × 2` / `2 × 2` pair below is
one — and in general any well-typed pair in which `A` has more rows than `B`
(while `A.width = B.rowCount`) panics rather than returning a result or an
error. -/
theorem mul_C3_panic :
    (Matrix2D.is_multiplicable (⟨[[1,1],[1,1],[1,1]],2⟩ : Matrix2D Int)
        ⟨[[2,2],[2,2]],2⟩ ∧
      Matrix2D.mul (⟨[[1,1],[1,1],[1,1]],2⟩ : Matrix2D Int) ⟨[[2,2],[2,2]],2⟩ =
        Except.ok none) ∧
    ∀ (A B : Matrix2D Int), A.is_multiplicable B →
      B.data.length < A.data.length → A.mul B = Except.ok none := by
  constructor
  · decide
  · intro A B hm hlt
    rw [Matrix2D.mul, if_pos hm, if_neg (by omega)]

/-- Witness for C3's general clause at a concrete `3 × 1` / `1 × 1` pair. -/
theorem mul_C3_panic_witness :
    Matrix2D.mul (⟨[[7],[8],[9]],1⟩ : Matrix2D Int) ⟨[[5]],1⟩ =
      Except.ok none :=
  mul_C3_panic.2 _ _ (by decide) (by decide)

/-- Witness for the amended C1 at a concrete multiplicable `2 × 2` pair. -/
theorem mul_C1_spec_witness :
    ∃ C : Matrix2D Int,
      Matrix2D.mul (⟨[[1,2],[3,4]],2⟩ : Matrix2D Int) ⟨[[5,6],[7,8]],2⟩ =
        Except.ok (some C) ∧
      C.data.length = 2 ∧ C.width = 2 ∧
      (∀ r ∈ C.data, r.length = 2) ∧
      (∀ i j, i < 2 → j < 2 →
        C.entry i j = Matrix2D.rsum 2
          (fun k => (⟨[[1,2],[3,4]],2⟩ : Matrix2D Int).entry i k *
            (⟨[[5,6],[7,8]],2⟩ : Matrix2D Int).entry i j)) :=
  (mul_C1_spec (⟨[[1,2],[3,4]],2⟩ : Matrix2D Int) ⟨[[5,6],[7,8]],2⟩
    (by decide) (by decide)).2 (by decide) (by decide)

/-- Witness for the amended C2 at the spec's example matrix. -/
theorem mul_C2_identity_witness :
    Matrix2D.mul (Matrix2D.diag 2 (1 : Int)) ⟨[[2,4],[3,6]],2⟩ =
      Except.ok (some ⟨[[2,4],[3,6]],2⟩) :=
  mul_C2_identity (⟨[[2,4],[3,6]],2⟩ : Matrix2D Int) 2
    (by decide) (by decide) (by decide) (by decide)

/-- Claim C6: `new(rows)` returns `EmptyMatrix` exactly on zero rows,
`EmptyRow` exactly when the first row is empty, `InconsistentRowLength`
exactly when some row's length differs from the first row's, and otherwise
succeeds with `width` equal to the first row's length and `data` the given
rows. -/
theorem new_C6_spec (rows : List (List α)) :
    (Matrix2D.new rows = Except.error Matrix2DError.EmptyMatrix ↔
      rows.length = 0) ∧
    (Matrix2D.new rows = Except.error Matrix2DError.EmptyRow ↔
      rows.length ≠ 0 ∧ (rows.headD []).length = 0) ∧
    (Matrix2D.new rows = Except.error Matrix2DError.InconsistentRowLength ↔
      rows.length ≠ 0 ∧ (rows.headD []).length ≠ 0 ∧
        ∃ r ∈ rows, r.length ≠ (rows.headD []).length) ∧
    (rows.length ≠ 0 → (rows.headD []).length ≠ 0 →
      (∀ r ∈ rows, r.length = (rows.headD []).length) →
      Matrix2D.new rows = Except.ok ⟨rows, (rows.headD []).length⟩) := by
  cases rows with
  | nil =>
    refine ⟨by simp [Matrix2D.new], by simp [Matrix2D.new],
      by simp [Matrix2D.new], by simp⟩
  | cons r rest =>
    by_cases h2 : r.length = 0
    · have hnew : Matrix2D.new (r :: rest) = Except.error Matrix2DError.EmptyRow := by
        rw [Matrix2D.new, if_neg (by simp), if_pos (by simpa using h2)]
      refine ⟨by simp [hnew], by simp [hnew, h2], by simp [hnew, h2], ?_⟩
      intro _ hw _
      exact absurd (by simpa using h2) hw
    · by_cases h3 : ∀ row ∈ r :: rest, row.length = r.length
      · have hnew : Matrix2D.new (r :: rest) =
            Except.ok ⟨r :: rest, r.length⟩ := by
          refine new_ok (by simp) (by simpa using h2) (by simpa using h3)
        refine ⟨by simp [hnew], ?_, ?_, fun _ _ _ => by simpa using hnew⟩
        · simp [hnew]
          intro h
          exact h2 (by simp [h])
        rw [hnew]
        simp only [List.headD_cons]
        constructor
        · intro hc
          exact absurd hc (by simp)
        · rintro ⟨-, -, r', hr', hne⟩
          exact absurd (h3 r' hr') hne
      · have hnew : Matrix2D.new (r :: rest) =
            Except.error Matrix2DError.InconsistentRowLength := by
          rw [Matrix2D.new, if_neg (by simp), if_neg (by simpa using h2),
            if_pos (by simpa using h3)]
        push_neg at h3
        obtain ⟨r', hr', hne⟩ := h3
        refine ⟨by simp [hnew], by simp [hnew, h2], ?_, ?_⟩
        · rw [hnew]
          simp only [List.headD_cons]
          constructor
          · intro _
            exact ⟨by simp, h2, r', hr', hne⟩
          · intro _
            trivial
        · intro _ _ hall
          exact absurd (hall r' hr') hne

/-- Witness for C6's success branch at a concrete rectangular input. -/
theorem new_C6_spec_witness :
    Matrix2D.new ([[1,2],[3,4],[5,6]] : List (List Int)) =
      Except.ok ⟨[[1,2],[3,4],[5,6]], 2⟩ :=
  (new_C6_spec ([[1,2],[3,4],[5,6]] : List (List Int))).2.2.2
    (by decide) (by decide) (by decide)

theorem zipWith_add_sub [CommRing α] :
    ∀ (a b : List α), a.length = b.length →
      List.zipWith (fun x y => x - y)
        (List.zipWith (fun x y => x + y) a b) b = a
  | [], b, _ => by cases b <;> simp
  | x :: a, [], h => by simp at h
  | x :: a, y :: b, h => by
    simp only [List.zipWith_cons_cons]
    rw [zipWith_add_sub a b (by simpa using h)]
    simp

theorem rows_add_sub [CommRing α] (w : Nat) :
    ∀ (R1 R2 : List (List α)), R1.length = R2.length →
      (∀ r ∈ R1, r.length = w) → (∀ r ∈ R2, r.length = w) →
      List.zipWith (fun r1 r2 => List.zipWith (fun x y => x - y) r1 r2)
        (List.zipWith (fun r1 r2 => List.zipWith (fun x y => x + y) r1 r2) R1 R2)
        R2 = R1
  | [], R2, _, _, _ => by cases R2 <;> simp
  | r :: R1, [], h, _, _ => by simp at h
  | r1 :: R1, r2 :: R2, h, h1, h2 => by
    simp only [List.zipWith_cons_cons]
    rw [rows_add_sub w R1 R2 (by simpa using h)
      (fun r hr => h1 r (by simp [hr])) (fun r hr => h2 r (by simp [hr]))]
    rw [zipWith_add_sub r1 r2 (by rw [h1 r1 (by simp), h2 r2 (by simp)])]

theorem zip_rows_new {f : α → α → α} {A B : Matrix2D α}
    (hA : A.WF) (hB : B.WF) (hw : A.width = B.width)
    (hl : A.data.length = B.data.length) :
    (List.zipWith (fun r1 r2 => List.zipWith f r1 r2) A.data B.data).length
        = A.data.length ∧
    (∀ r ∈ List.zipWith (fun r1 r2 => List.zipWith f r1 r2) A.data B.data,
        r.length = A.width) ∧
    Matrix2D.new (List.zipWith (fun r1 r2 => List.zipWith f r1 r2) A.data B.data) =
      Except.ok ⟨List.zipWith (fun r1 r2 => List.zipWith f r1 r2) A.data B.data,
        A.width⟩ := by
  have hzlen : (List.zipWith (fun r1 r2 => List.zipWith f r1 r2)
      A.data B.data).length = A.data.length := by
    rw [List.length_zipWith]
    omega
  have hrows : ∀ r ∈ List.zipWith (fun r1 r2 => List.zipWith f r1 r2)
      A.data B.data, r.length = A.width := by
    intro r hr
    rw [List.mem_iff_getElem] at hr
    obtain ⟨i, hilen, hieq⟩ := hr
    rw [List.getElem_zipWith] at hieq
    rw [← hieq, List.length_zipWith]
    have hiA : i < A.data.length := by omega
    have e1 : A.data[i].length = A.width :=
      hA.2.2 _ (List.getElem_mem hiA)
    have e2 : B.data[i].length = B.width :=
      hB.2.2 _ (List.getElem_mem (by omega))
    omega
  have hne : (List.zipWith (fun r1 r2 => List.zipWith f r1 r2)
      A.data B.data) ≠ [] := by
    intro hc
    rw [hc] at hzlen
    have := hA.1
    simp at hzlen
    omega
  have hhead : ((List.zipWith (fun r1 r2 => List.zipWith f r1 r2)
      A.data B.data).headD []).length = A.width := by
    apply hrows
    rcases hx : List.zipWith (fun r1 r2 => List.zipWith f r1 r2)
        A.data B.data with _ | ⟨z, Z⟩
    · exact absurd hx hne
    · simp
  refine ⟨hzlen, hrows, ?_⟩
  rw [new_ok hne (by rw [hhead]; exact Nat.pos_iff_ne_zero.mp hA.2.1)
    (fun r hr => by rw [hrows r hr, hhead]), hhead]

theorem getD_zipWith {β γ δ : Type} (f : β → γ → δ) :
    ∀ (a : List β) (b : List γ) (j : Nat), j < a.length → j < b.length →
      ∀ (d1 : β) (d2 : γ) (d3 : δ),
      (List.zipWith f a b).getD j d3 = f (a.getD j d1) (b.getD j d2)
  | [], _, j, h, _, _, _, _ => by simp at h
  | _ :: _, [], j, _, h, _, _, _ => by simp at h
  | x :: a, y :: b, 0, _, _, d1, d2, d3 => by simp
  | x :: a, y :: b, j + 1, h1, h2, d1, d2, d3 => by
    simp only [List.zipWith_cons_cons, List.getD_cons_succ]
    exact getD_zipWith f a b j (by simpa using h1) (by simpa using h2) d1 d2 d3

theorem zip_rows_entry {f : α → α → α} [Zero α] {A B : Matrix2D α}
    (hA : A.WF) (hB : B.WF) (hw : A.width = B.width)
    (hl : A.data.length = B.data.length) {i j : Nat}
    (hi : i < A.data.length) (hj : j < A.width) :
    Matrix2D.entry
        ⟨List.zipWith (fun r1 r2 => List.zipWith f r1 r2) A.data B.data,
          A.width⟩ i j =
      f (A.entry i j) (B.entry i j) := by
  have e1 : (A.data.getD i []).length = A.width := WF_row_length hA hi
  have e2 : (B.data.getD i []).length = B.width := WF_row_length hB (by omega)
  show (((List.zipWith (fun r1 r2 => List.zipWith f r1 r2)
      A.data B.data).getD i []).getD j 0) = _
  rw [getD_zipWith _ A.data B.data i hi (by omega) [] [] [],
    getD_zipWith f _ _ j (by omega) (by omega) 0 0 0]
  rfl

theorem headD_eq_getD {β : Type} (l : List β) (d : β) : l.headD d = l.getD 0 d := by
  cases l <;> rfl

/-- Claim C7: for well-formed matrices of equal dimensions, `add` and
`substract` succeed with the elementwise sum/difference and the dimensions
preserved, the additive round-trip `(A.add(B)).substract(B) == A` holds, and
`A.add(B) == B.add(A)`; when the dimensions differ both operations fail with
`NotAdditive`.  Proved over any commutative ring of scalars, which covers the
exact integer and rational instantiations named by the claim. -/
theorem add_C7_spec [CommRing α] (A B : Matrix2D α) (hA : A.WF) (hB : B.WF) :
    (A.is_additive B →
      ∃ S D : Matrix2D α,
        A.add B = Except.ok (some S) ∧ A.substract B = Except.ok (some D) ∧
        S.width = A.width ∧ S.data.length = A.data.length ∧
        D.width = A.width ∧ D.data.length = A.data.length ∧
        (∀ i j, i < A.data.length → j < A.width →
          S.entry i j = A.entry i j + B.entry i j ∧
          D.entry i j = A.entry i j - B.entry i j) ∧
        S.substract B = Except.ok (some A) ∧
        A.add B = B.add A) ∧
    (¬ A.is_additive B →
      A.add B = Except.error Matrix2DError.NotAdditive ∧
      A.substract B = Except.error Matrix2DError.NotAdditive) := by
  constructor
  · intro hadd
    obtain ⟨hw, hl⟩ := hadd
    have hZ1 := zip_rows_new (f := fun x y => x + y) hA hB hw hl
    have hZ2 := zip_rows_new (f := fun x y => x - y) hA hB hw hl
    have haddok : A.add B = Except.ok (some
        ⟨List.zipWith (fun r1 r2 => List.zipWith (fun x y => x + y) r1 r2)
          A.data B.data, A.width⟩) := by
      rw [Matrix2D.add, if_pos ⟨hw, hl⟩, hZ1.2.2]
      rfl
    have hsubok : A.substract B = Except.ok (some
        ⟨List.zipWith (fun r1 r2 => List.zipWith (fun x y => x - y) r1 r2)
          A.data B.data, A.width⟩) := by
      rw [Matrix2D.substract, if_pos ⟨hw, hl⟩, hZ2.2.2]
      rfl
    refine ⟨_, _, haddok, hsubok, rfl, hZ1.1, rfl, hZ2.1, ?_, ?_, ?_⟩
    · intro i j hi hj
      exact ⟨zip_rows_entry hA hB hw hl hi hj, zip_rows_entry hA hB hw hl hi hj⟩
    · -- round trip
      have hSWF : (⟨List.zipWith (fun r1 r2 => List.zipWith (fun x y => x + y) r1 r2)
          A.data B.data, A.width⟩ : Matrix2D α).WF := by
        refine ⟨?_, hA.2.1, hZ1.2.1⟩
        show 0 < (List.zipWith _ A.data B.data).length
        rw [hZ1.1]
        exact hA.1
      have hSB : (⟨List.zipWith (fun r1 r2 => List.zipWith (fun x y => x + y) r1 r2)
          A.data B.data, A.width⟩ : Matrix2D α).is_additive B := by
        exact ⟨hw, by rw [show (⟨List.zipWith (fun r1 r2 =>
          List.zipWith (fun x y => x + y) r1 r2) A.data B.data, A.width⟩ :
            Matrix2D α).data.length = A.data.length from hZ1.1, hl]⟩
      rw [Matrix2D.substract, if_pos hSB]
      have heq : List.zipWith (fun r1 r2 => List.zipWith (fun x y => x - y) r1 r2)
          (List.zipWith (fun r1 r2 => List.zipWith (fun x y => x + y) r1 r2)
            A.data B.data) B.data = A.data :=
        rows_add_sub A.width A.data B.data hl hA.2.2
          (fun r hr => (hB.2.2 r hr).trans hw.symm)
      show Except.ok (Matrix2D.new (List.zipWith _ _ B.data)).toOption = _
      rw [heq]
      have hok : Matrix2D.new A.data = Except.ok ⟨A.data, A.width⟩ := by
        have h0 : A.data ≠ [] := by
          intro hc
          have := hA.1
          rw [hc] at this
          simp at this
        have hhd : (A.data.headD []).length = A.width := by
          rw [headD_eq_getD]
          exact WF_row_length hA hA.1
        rw [new_ok h0 (by rw [hhd]; exact Nat.pos_iff_ne_zero.mp hA.2.1)
          (fun r hr => by rw [hA.2.2 r hr, hhd]), hhd]
      rw [hok]
      rfl
    · -- commutativity
      rw [Matrix2D.add, Matrix2D.add, if_pos ⟨hw, hl⟩, if_pos ⟨hw.symm, hl.symm⟩]
      have hcomm : List.zipWith (fun r1 r2 => List.zipWith (fun x y => x + y) r1 r2)
          A.data B.data =
          List.zipWith (fun r1 r2 => List.zipWith (fun x y => x + y) r1 r2)
            B.data A.data :=
        List.zipWith_comm_of_comm _
          (fun r1 r2 => List.zipWith_comm_of_comm _ (fun x y => add_comm x y) r1 r2)
          A.data B.data
      rw [hcomm]
  · intro h
    constructor
    · rw [Matrix2D.add, if_neg h]
    · rw [Matrix2D.substract, if_neg h]

/-- Witness for C7: commutativity of `add` at the repository's own test pair. -/
theorem add_C7_spec_witness :
    Matrix2D.add (⟨[[7,11],[3,15]],2⟩ : Matrix2D Int) ⟨[[13,9],[17,5]],2⟩ =
      Matrix2D.add (⟨[[13,9],[17,5]],2⟩ : Matrix2D Int) ⟨[[7,11],[3,15]],2⟩ := by
  obtain ⟨S, D, h⟩ := (add_C7_spec (⟨[[7,11],[3,15]],2⟩ : Matrix2D Int)
    ⟨[[13,9],[17,5]],2⟩ (by decide) (by decide)).1 (by decide)
  exact h.2.2.2.2.2.2.2.2

theorem powFuel_pos [CommRing α] (a : Complex α) :
    ∀ m : Nat, Complex.powFuel a ((m : Int) + 1) (m + 1) =
      some (Complex.powNat a m) := by
  intro m
  induction m with
  | zero => rfl
  | succ m ih =>
    have hne : ((m : Int) + 1) + 1 ≠ 1 := by omega
    have harg : ((m : Int) + 1) + 1 - 1 = (m : Int) + 1 := by omega
    have hc : (((m + 1 : Nat)) : Int) = (m : Int) + 1 := by push_cast; ring
    rw [Complex.powFuel, hc, if_neg hne, harg, ih]
    rfl

/-- Claim C8: for every `n ≥ 1` the recursion of `pow(a, n)` terminates —
`n` unwindings of the recursion suffice (`powFuel` returns `some`) — and its
value is the n-fold product `powNat a (n - 1)` defined by exactly the claimed
recurrence `pow(a, 1) = a`, `pow(a, n) = a * pow(a, n - 1)`; for every
`n ≤ 0` no amount of fuel makes the recursion reach its base case (modelling
non-termination). -/
theorem pow_C8_spec [CommRing α] :
    (∀ (a : Complex α) (n : Int), 1 ≤ n →
      Complex.powFuel a n n.toNat = some (Complex.powNat a (n.toNat - 1))) ∧
    (∀ (a : Complex α) (n : Int) (fuel : Nat), n ≤ 0 →
      Complex.powFuel a n fuel = none) := by
  constructor
  · intro a n hn
    have hm : n = ((n.toNat - 1 : Nat) : Int) + 1 := by omega
    have hm2 : n.toNat = (n.toNat - 1) + 1 := by omega
    rw [hm, hm2]
    have := powFuel_pos a (n.toNat - 1)
    simpa using this
  · intro a n fuel
    induction fuel generalizing n with
    | zero => intro _; rfl
    | succ f ih =>
      intro hn
      rw [Complex.powFuel, if_neg (by omega), ih (n - 1) (by omega)]
      rfl

/-- Witness for C8 at `a = 10 + 10i`, `n = 2` (the repository's `pow_test`). -/
theorem pow_C8_spec_witness :
    Complex.powFuel (⟨10, 10⟩ : Complex Int) 2 2 =
      some (Complex.powNat ⟨10, 10⟩ 1) :=
  pow_C8_spec.1 (⟨10, 10⟩ : Complex Int) 2 (by decide)

/-- Claim C9: `multiply` computes the standard complex product and `divide`
divides by the squared magnitude `d = b.re² + b.im²` componentwise, with no
guard against `d = 0` — the formulas hold for every operand pair, the
zero-divisor case included, with the scalar type's own division semantics. -/
theorem complex_C9_spec [Field α] (a b : Complex α) :
    Complex.multiply a b =
      ⟨a.re * b.re - a.im * b.im, a.im * b.re + a.re * b.im⟩ ∧
    Complex.divide a b =
      ⟨(a.re * b.re + a.im * b.im) / (b.re * b.re + b.im * b.im),
       (a.im * b.re - a.re * b.im) / (b.re * b.re + b.im * b.im)⟩ :=
  ⟨rfl, rfl⟩

/-- Claim C10: the DFT returns a sequence of the same length as its input,
for every rotation-factor function; in particular the empty input yields the
empty output. -/
theorem fft_C10_length [CommRing α] (rot : Nat → Nat → Nat → Complex α) :
    (∀ x : List (Complex α), (fft rot x).length = x.length) ∧
    fft rot ([] : List (Complex α)) = [] := by
  constructor
  · intro x
    simp [fft]
  · rfl

/-- Claim C4: `lu_decomposition` fails with `NotSquare` on every well-formed
non-square matrix; on a square matrix it succeeds with `(L, U)` of the same
`n × n` shape, `L` unit-lower-triangular (ones on the diagonal, zeros above),
`U` upper-triangular (zeros below), and — whenever every pivot `U[j][j]` is
non-zero, the precise content of the claim's "all leading principal minors
non-zero, so every pivot division is defined" hypothesis — the standard
matrix product `L·U` (cell `(i,j) = Σ_k L[i][k]*U[k][j]`) reconstructs `A`. -/
theorem lu_C4_spec [Field α] (A : Matrix2D α) (hA : A.WF) :
    (A.data.length ≠ A.width →
      A.lu_decomposition = Except.error Matrix2DError.NotSquare) ∧
    (A.data.length = A.width →
      A.lu_decomposition = Except.ok A.luPair ∧
      A.luPair.1.data.length = A.width ∧ A.luPair.1.width = A.width ∧
      A.luPair.2.data.length = A.width ∧ A.luPair.2.width = A.width ∧
      (∀ i, i < A.width → A.luPair.1.entry i i = 1) ∧
      (∀ i j, i < j → j < A.width → A.luPair.1.entry i j = 0) ∧
      (∀ i j, j < i → i < A.width → A.luPair.2.entry i j = 0) ∧
      ((∀ j, j < A.width → A.luPair.2.entry j j ≠ 0) →
        ∀ i j, i < A.width → j < A.width →
          Matrix2D.rsum A.width
              (fun k => A.luPair.1.entry i k * A.luPair.2.entry k j) =
            A.entry i j)) := by
  constructor
  · intro h
    rw [Matrix2D.lu_decomposition,
      if_neg (fun hs => h ((WF_square_iff hA).mp hs))]
  · intro hsq
    have hsq' : A.is_square := (WF_square_iff hA).mpr hsq
    refine ⟨by rw [Matrix2D.lu_decomposition, if_pos hsq'],
      (ofFun_shape _ _).1, (ofFun_shape _ _).2.1,
      (ofFun_shape _ _).1, (ofFun_shape _ _).2.1, ?_, ?_, ?_, ?_⟩
    · intro i hi
      rw [(luPair_entry A hi hi).1, luSeq_l_upper A.entry A.width (le_refl i),
        if_pos rfl]
    · intro i j hij hj
      rw [(luPair_entry A (by omega) hj).1,
        luSeq_l_upper A.entry A.width (by omega), if_neg (by omega)]
    · intro i j hji hi
      rw [(luPair_entry A hi (by omega)).2, luSeq_u_lower A.entry A.width hji]
    · intro hpiv i j hi hj
      have hswap : Matrix2D.rsum A.width
          (fun k => A.luPair.1.entry i k * A.luPair.2.entry k j) =
          Matrix2D.rsum A.width (fun k =>
            (Matrix2D.luSeq A.entry A.width (A.width * A.width)).1 i k *
            (Matrix2D.luSeq A.entry A.width (A.width * A.width)).2 k j) :=
        rsum_congr (fun k hk => by
          rw [(luPair_entry A hi hk).1, (luPair_entry A hk hj).2])
      rw [hswap]
      rcases le_or_lt i j with hij | hij
      · rw [rsum_drop_zeros (m := i + 1) (by omega) (fun k h1 h2 => by
          rw [luSeq_l_upper A.entry A.width (by omega), if_neg (by omega),
            zero_mul])]
        rw [rsum_succ, luSeq_l_upper A.entry A.width (le_refl i), if_pos rfl,
          one_mul, luFinal_u A.entry hi hj hij]
        ring
      · rw [rsum_drop_zeros (m := j + 1) (by omega) (fun k h1 h2 => by
          rw [luSeq_u_lower A.entry A.width (by omega), mul_zero])]
        rw [rsum_succ, luFinal_l A.entry hi hij]
        have hp : (Matrix2D.luSeq A.entry A.width (A.width * A.width)).2 j j ≠ 0 := by
          have := hpiv j (by omega)
          rwa [(luPair_entry A (by omega) (by omega)).2] at this
        rw [div_mul_cancel₀ _ hp]
        ring

/-- Witness for C4: the reconstruction `L·U = A` at cell `(1, 0)` of the
repository's LU test matrix `[[5,7],[7,9]]` over `ℚ` — the cell whose value
goes through the pivot division. -/
theorem lu_C4_spec_witness :
    Matrix2D.rsum 2 (fun k =>
        (⟨[[5,7],[7,9]],2⟩ : Matrix2D ℚ).luPair.1.entry 1 k *
        (⟨[[5,7],[7,9]],2⟩ : Matrix2D ℚ).luPair.2.entry k 0) =
      (⟨[[5,7],[7,9]],2⟩ : Matrix2D ℚ).entry 1 0 := by
  have h := ((lu_C4_spec (⟨[[5,7],[7,9]],2⟩ : Matrix2D ℚ) (by decide)).2
    (by decide)).2.2.2.2.2.2.2.2
  apply h ?_ 1 0 (by decide) (by decide)
  intro j hj
  interval_cases j
  · show (⟨[[5,7],[7,9]],2⟩ : Matrix2D ℚ).luPair.2.entry 0 0 ≠ 0
    simp [Matrix2D.luPair, Matrix2D.luLoop, Matrix2D.luReassert, Matrix2D.luStep,
      Matrix2D.luInit, Matrix2D.updf, Matrix2D.rsum, Matrix2D.entry,
      Matrix2D.ofFun, List.range_succ]
  · show (⟨[[5,7],[7,9]],2⟩ : Matrix2D ℚ).luPair.2.entry 1 1 ≠ 0
    simp [Matrix2D.luPair, Matrix2D.luLoop, Matrix2D.luReassert, Matrix2D.luStep,
      Matrix2D.luInit, Matrix2D.updf, Matrix2D.rsum, Matrix2D.entry,
      Matrix2D.ofFun, List.range_succ]
    norm_num

theorem mapIdx_map_range {β γ : Type} (g : Nat → β) (f : Nat → β → γ) (n : Nat) :
    ((List.range n).map g).mapIdx f = (List.range n).map (fun i => f i (g i)) := by
  apply List.ext_getElem
  · simp
  · intro i h1 h2
    simp [List.getElem_mapIdx]

/-- Claim C5: `det` fails with `NotSquare` on every well-formed non-square
matrix; a `1 × 1` matrix's determinant is its sole element; every larger
square matrix (under the claim's non-zero-pivot hypothesis) yields the
product of the diagonal entries of the `U` factor of `lu_decomposition`; and
concretely `det([[5,7],[7,9]]) = -4` over `ℚ`. -/
theorem det_C5_spec [Field α] (A : Matrix2D α) (hA : A.WF) :
    (A.data.length ≠ A.width →
      A.det = Except.error Matrix2DError.NotSquare) ∧
    (A.data.length = A.width → A.width = 1 →
      A.det = Except.ok (A.entry 0 0)) ∧
    (A.data.length = A.width → 2 ≤ A.width →
      (∀ j, j < A.width → A.luPair.2.entry j j ≠ 0) →
      ∃ L U : Matrix2D α, A.lu_decomposition = Except.ok (L, U) ∧
        A.det = Except.ok
          (((List.range A.width).map (fun i => U.entry i i)).prod)) ∧
    Matrix2D.det (⟨[[5,7],[7,9]],2⟩ : Matrix2D ℚ) = Except.ok (-4) := by
  refine ⟨?_, ?_, ?_, ?_⟩
  · intro h
    rw [Matrix2D.det, if_neg (fun hs => h ((WF_square_iff hA).mp hs))]
  · intro hsq h1
    rw [Matrix2D.det, if_pos ((WF_square_iff hA).mpr hsq), if_pos h1]
  · intro hsq h2 _
    have hsq' : A.is_square := (WF_square_iff hA).mpr hsq
    refine ⟨A.luPair.1, A.luPair.2,
      by rw [Matrix2D.lu_decomposition, if_pos hsq'], ?_⟩
    rw [Matrix2D.det, if_pos hsq', if_neg (by omega)]
    have hdata : A.luPair.2.data = (List.range A.width).map (fun i =>
        (List.range A.width).map (fun j =>
          (Matrix2D.luReassert A.width
            (Matrix2D.luLoop A.entry A.width)).2 i j)) := rfl
    rw [hdata, mapIdx_map_range]
    have hmap : (List.range A.width).map (fun i =>
        ((List.range A.width).map (fun j =>
          (Matrix2D.luReassert A.width
            (Matrix2D.luLoop A.entry A.width)).2 i j)).getD i 0) =
        (List.range A.width).map (fun i => A.luPair.2.entry i i) := by
      apply List.map_congr_left
      intro i hi
      rw [List.mem_range] at hi
      rw [getD_map_range _ _ hi]
      exact (ofFun_entry A.width _ hi hi).symm
    rw [hmap]
  · simp [Matrix2D.det, Matrix2D.is_square, Matrix2D.luPair, Matrix2D.luLoop,
      Matrix2D.luReassert, Matrix2D.luStep, Matrix2D.luInit, Matrix2D.updf,
      Matrix2D.rsum, Matrix2D.entry, Matrix2D.ofFun, List.range_succ]
    norm_num

/-- Witness for C5 at the `1 × 1` matrix `[[3]]`: the determinant is the sole
element. -/
theorem det_C5_spec_witness :
    Matrix2D.det (⟨[[3]],1⟩ : Matrix2D ℚ) =
      Except.ok ((⟨[[3]],1⟩ : Matrix2D ℚ).entry 0 0) :=
  (det_C5_spec (⟨[[3]],1⟩ : Matrix2D ℚ) (by decide)).2.1 (by decide) (by decide)

end Rsmath
